import Mathlib

/-!
Verification development for the raw-handling core of the repository:
the schema model (`getPhrasingContentSchema`, `getBlockContentSchema`),
the schema sanitizer (`cleanNodeList` / `removeInvalidHTML`), the inline
classifier (`isInlineContent`) and the tree filter engine
(`deepFilterNodeList`) with the embedded-content promotion filter.

The JavaScript sources work over DOM trees obtained from
`doc.body.innerHTML = HTML`; this development embeds the code over an
explicit tree datatype (`DNode`), with string parsing elided: each claim
about an HTML string literal is settled on the DOM tree that parsing that
literal yields, and serialization (`serializeList`) maps trees back to
`innerHTML` strings.  Fallible code paths (JavaScript `TypeError`s) are
modelled with `Except String`.
-/

namespace Gutenberg

/-- A DOM node: an element (lowercase tag name, ordered attribute list,
ordered children) or a text node.  Comment nodes are not modelled; none of
the claims involve them. -/
inductive DNode : Type where
  | element (tag : String) (attrs : List (String × String)) (children : List DNode)
  | text (s : String)

/-- `node.nodeName.toLowerCase()`: the tag for elements, `#text` for text
nodes. -/
def DNode.nodeName : DNode → String
  | .element t _ _ => t
  | .text _ => "#text"

/-- `node.nodeType` rendered as a property key, as JavaScript coerces it in
`schema.hasOwnProperty( node.nodeType )`: `"1"` for elements, `"3"` for
text nodes. -/
def DNode.nodeTypeKey : DNode → String
  | .element _ _ _ => "1"
  | .text _ => "3"

def DNode.childrenOf : DNode → List DNode
  | .element _ _ cs => cs
  | .text _ => []

def DNode.isElement : DNode → Bool
  | .element _ _ _ => true
  | .text _ => false

/-- A schema entry (`utils.js`): optional allowed attributes, allowed
classes, children sub-schema and required-descendant selectors.  Absent
JavaScript fields are `none`.  The children sub-schema is an ordered
association list from property keys (tag names, or `"3"` for the
`TEXT_NODE` sentinel) to entries, mirroring JavaScript object insertion
order. -/
inductive SchemaEntry : Type where
  | mk (attributes : Option (List String)) (classes : Option (List String))
       (children : Option (List (String × SchemaEntry)))
       (required : Option (List String))

/-- A schema: what JavaScript represents as a plain object keyed by tag
name (or node-type sentinel). -/
abbrev Schema := List (String × SchemaEntry)

def SchemaEntry.attributes : SchemaEntry → Option (List String)
  | ⟨a, _, _, _⟩ => a

def SchemaEntry.classes : SchemaEntry → Option (List String)
  | ⟨_, c, _, _⟩ => c

def SchemaEntry.children : SchemaEntry → Option Schema
  | ⟨_, _, ch, _⟩ => ch

/-- The `require` field of a schema entry (named `required` here; `require`
is reserved vocabulary in some Lean tooling). -/
def SchemaEntry.required : SchemaEntry → Option (List String)
  | ⟨_, _, _, r⟩ => r

/-- `schema[ key ]`: first binding for the key, as JavaScript property
lookup (keys are unique in objects; first occurrence decides). -/
def lookupKey (s : Schema) (k : String) : Option SchemaEntry :=
  (s.find? (fun p => p.1 == k)).map (fun p => p.2)

/-- `schema.hasOwnProperty( key )`. -/
def hasKey (s : Schema) (k : String) : Bool :=
  (lookupKey s k).isSome

/-! ### String primitives

JavaScript `trim`, `split( ' ' )`, `join( ' ' )` and HTML escaping are
implemented over character lists (Lean's built-in `String.trim`,
`String.splitOn` and `String.replace` do not reduce in the kernel). -/

/-- Whitespace for `String.trim` purposes. -/
def isWsChar (c : Char) : Bool :=
  c == ' ' || c == '\t' || c == '\n' || c == '\r'

/-- `! s.trim()`: the string is empty after trimming, i.e. all
whitespace. -/
def isBlank (s : String) : Bool :=
  s.data.all isWsChar

/-- `s.split( ' ' )` on the character list: split at every single space
(JavaScript `split` with a one-character separator). -/
def splitChars : List Char → List (List Char)
  | [] => [[]]
  | c :: cs =>
    if c == ' ' then [] :: splitChars cs
    else
      match splitChars cs with
      | h :: t => (c :: h) :: t
      | [] => [[c]]

def splitOnSpace (s : String) : List String :=
  (splitChars s.data).map String.mk

/-- `list.join( ' ' )`. -/
def joinSpace : List String → String
  | [] => ""
  | h :: t => t.foldl (fun acc x => acc ++ " " ++ x) h

/-- Concatenation of a list of strings. -/
def concatAll (l : List String) : String :=
  l.foldl (fun acc x => acc ++ x) ""

/-! ### isEmpty (utils.js lines 91-113) -/

mutual

/-- `Array.from( element.childNodes ).every( ... )` from `isEmpty`. -/
def allEmptyChild : List DNode → Bool
  | [] => true
  | c :: cs => emptyChild c && allEmptyChild cs

/-- The per-child test of `isEmpty`: whitespace-only text, a `BR`, or an
attribute-free recursively empty element. -/
def emptyChild : DNode → Bool
  | .text s => isBlank s
  | .element t attrs cs => t == "br" || (attrs.isEmpty && allEmptyChild cs)

end

/-- `isEmpty( element )`: no child nodes, or every child passes
`emptyChild`.  (For a childless element both readings give `true`.) -/
def isEmpty : DNode → Bool
  | .text _ => true
  | .element _ _ cs => allEmptyChild cs

/-! ### Attribute helpers (DOM operations used by `cleanNodeList`) -/

/-- `node.getAttribute( k )`. -/
def getAttr (l : List (String × String)) (k : String) : Option String :=
  (l.find? (fun p => p.1 == k)).map (fun p => p.2)

/-- `node.setAttribute( k, v )`: replace the first binding in place, or
append when absent. -/
def setAttr : List (String × String) → String → String → List (String × String)
  | [], k, v => [(k, v)]
  | p :: ps, k, v => if p.1 == k then (k, v) :: ps else p :: setAttr ps k v

/-- `node.removeAttribute( k )`. -/
def removeAttr (l : List (String × String)) (k : String) : List (String × String) :=
  l.filter (fun p => p.1 != k)

/-! ### Phrasing content (utils.js lines 23-60) -/

/-- The property keys of the phrasing-content schema, in source order
(`"3"` is the stringified `TEXT_NODE` sentinel key). -/
def phrasingKeys : List String :=
  ["strong", "em", "del", "ins", "a", "code", "abbr", "sub", "sup", "br", "3"]

/-- The nine tags given recursive `children` by `getPhrasingContentSchema`. -/
def nestingKeys : List String :=
  ["strong", "em", "del", "ins", "a", "code", "abbr", "sub", "sup"]

/-- Attribute allowances of the phrasing-content schema base entries. -/
def phrasingAttrs (tag : String) : Option (List String) :=
  if tag == "a" then some ["href"]
  else if tag == "abbr" then some ["title"]
  else none

/-- `_.omit( schema, tag )`: shallow copy without the given key, order
preserved. -/
def omitKey (s : Schema) (k : String) : Schema :=
  s.filter (fun p => p.1 != k)

/-- `getPhrasingContentSchema`, unfolded to nesting depth `d`.  The
JavaScript value is a finite cyclic object graph (every entry's `children`
is `omit` of the full schema, through shared references); `d` levels of
that graph unfold to this value, with `children` absent below depth `d`.
At every positive depth the nine nesting tags carry
`children = omit( schema, tag )`, while `br` and the text entry never
carry `children`. -/
def getPhrasingContentSchema : Nat → Schema
  | 0 => phrasingKeys.map (fun t => (t, SchemaEntry.mk (phrasingAttrs t) none none none))
  | d + 1 =>
    phrasingKeys.map (fun t =>
      (t, SchemaEntry.mk (phrasingAttrs t) none
        (if nestingKeys.contains t then some (omitKey (getPhrasingContentSchema d) t) else none)
        none))

/-- `isPhrasingContent` on a lowercased node name: membership in the
phrasing schema's keys (children are not consulted), or the generic
inline wrapper `span`. -/
def isPhrasingName (nm : String) : Bool :=
  hasKey (getPhrasingContentSchema 0) nm || nm == "span"

/-- `isPhrasingContent( node )` (utils.js lines 57-60). -/
def isPhrasingContent (n : DNode) : Bool :=
  isPhrasingName n.nodeName

/-! ### querySelector for the `require` constraint

The repository's schemas use bare tag names as `require` selectors
(e.g. `require: [ 'img' ]`); `node.querySelector( list.join( ',' ) )`
then succeeds iff some descendant's tag is in the list. -/

mutual

def hasDescWithTag (tags : List String) : List DNode → Bool
  | [] => false
  | c :: cs => matchesOrDesc tags c || hasDescWithTag tags cs

def matchesOrDesc (tags : List String) : DNode → Bool
  | .text _ => false
  | .element t _ cs => tags.contains t || hasDescWithTag tags cs

end

/-! ### cleanNodeList (utils.js lines 186-256)

Mutation is rendered functionally: processing a snapshot node yields the
list of nodes standing in its former position afterwards.  `unwrap`
splices cleaned children in place; `remove` yields `[]`; the inline-mode
`insertAfter( br, node )` before an unwrap appends a `br` after the
spliced children.  `node.nextElementSibling` at processing time is the
first element among the original following siblings (earlier processing
only rewrites content at or before the current position), so the
remaining sibling list is passed along for that check.  The childless
branch runs `node.removeNode( node.firstChild )`: `removeNode` is not a
DOM method, so reaching that branch throws a `TypeError`, modelled as
`Except.error`. -/

def brNode : DNode := .element "br" [] []

/-- The attribute and class stripping steps of `cleanNodeList` on a valid
element: drop attributes not allowed (sparing `class`), then filter the
`class` token list against the allowed classes, writing it back when
non-empty and removing it otherwise. -/
def cleanAttrs (e : SchemaEntry) (attrs : List (String × String)) :
    List (String × String) :=
  let attrs1 := attrs.filter (fun p =>
    p.1 == "class" || (e.attributes.getD []).contains p.1)
  let oldClasses := (getAttr attrs1 "class").getD ""
  let newClasses := joinSpace
    ((splitOnSpace oldClasses).filter (fun nm =>
      nm != "" && (e.classes.getD []).contains nm))
  if newClasses != "" then setAttr attrs1 "class" newClasses
  else removeAttr attrs1 "class"

theorem DNode.sizeOf_childrenOf_lt (n : DNode) : sizeOf n.childrenOf < sizeOf n := by
  cases n with
  | element t a c => simp [DNode.childrenOf]
  | text s => simp only [DNode.childrenOf]; cases s with | mk data => simp

mutual

def cleanSiblings : List DNode → Schema → Bool → Except String (List DNode)
  | [], _, _ => .ok []
  | n :: rest, s, inl =>
    match cleanNode n rest s inl with
    | .error m => .error m
    | .ok out =>
      match cleanSiblings rest s inl with
      | .error m => .error m
      | .ok rest' => .ok (out ++ rest')

def cleanNode : DNode → List DNode → Schema → Bool → Except String (List DNode)
  | .text str, rest, s, inl =>
    if hasKey s "#text" || hasKey s "3" then
      .ok [.text str]
    else
      .ok (if inl && !isPhrasingName "#text" && rest.any DNode.isElement then [brNode]
           else [])
  | .element t attrs cs, rest, s, inl =>
    if hasKey s t || hasKey s "1" then
      match lookupKey s t with
      | none => .error "TypeError: cannot destructure schema entry of undefined"
      | some e =>
        if isEmpty (.element t attrs cs) && e.children.isSome then
          .ok []
        else
          let attrs2 := cleanAttrs e attrs
          if cs.isEmpty then
            .ok [.element t attrs2 cs]
          else
            match e.children with
            | some csch =>
              if !(e.required.getD []).isEmpty &&
                  !hasDescWithTag (e.required.getD []) cs then
                cleanSiblings cs s inl
              else
                match cleanSiblings cs csch inl with
                | .error m => .error m
                | .ok cs' => .ok [.element t attrs2 cs']
            | none => .error "TypeError: node.removeNode is not a function"
    else
      match cleanSiblings cs s inl with
      | .error m => .error m
      | .ok inner =>
        .ok (inner ++
          (if inl && !isPhrasingName t && rest.any DNode.isElement then [brNode]
           else []))

end

/-! ### Serialization (`body.innerHTML` reading) -/

def escapeTextChar (c : Char) : String :=
  if c == '&' then "&amp;"
  else if c == '<' then "&lt;"
  else if c == '>' then "&gt;"
  else String.mk [c]

def escapeText (s : String) : String :=
  concatAll (s.data.map escapeTextChar)

def escapeAttrChar (c : Char) : String :=
  if c == '&' then "&amp;"
  else if c == '"' then "&quot;"
  else String.mk [c]

def escapeAttrValue (s : String) : String :=
  concatAll (s.data.map escapeAttrChar)

def voidTags : List String :=
  ["area", "base", "br", "col", "embed", "hr", "img", "input", "link",
   "meta", "param", "source", "track", "wbr"]

def serializeAttrs (attrs : List (String × String)) : String :=
  concatAll (attrs.map (fun p => " " ++ p.1 ++ "=\"" ++ escapeAttrValue p.2 ++ "\""))

mutual

def serializeNode : DNode → String
  | .text s => escapeText s
  | .element t attrs cs =>
    if voidTags.contains t then "<" ++ t ++ serializeAttrs attrs ++ ">"
    else "<" ++ t ++ serializeAttrs attrs ++ ">" ++ serializeList cs ++ "</" ++ t ++ ">"

def serializeList : List DNode → String
  | [] => ""
  | n :: ns => serializeNode n ++ serializeList ns

end

/-- `removeInvalidHTML( HTML, schema, inline )` (utils.js lines 267-275),
over the parsed body children; the result is the serialized
`body.innerHTML`, or the propagated `TypeError`. -/
def removeInvalidHTML (nodes : List DNode) (schema : Schema) (inline : Bool) :
    Except String String :=
  match cleanSiblings nodes schema inline with
  | .error m => .error m
  | .ok out => .ok (serializeList out)

/-! ### isInlineContent (is-inline-content.js) -/

/-- The tag groups of `inlineWhitelistTagGroups`. -/
def inlineWhitelistTagGroups : List (List String) :=
  [["ul", "li", "ol"], ["h1", "h2", "h3", "h4", "h5", "h6"]]

/-- `isInlineForTag( nodeName, tagName )`: both names in one whitelist
group.  The context tag is `Option`al (`null`/`undefined` in callers is
`none`). -/
def isInlineForTag (nodeName : String) (tagName : Option String) : Bool :=
  match tagName with
  | none => false
  | some tg => inlineWhitelistTagGroups.any (fun g => g.contains nodeName && g.contains tg)

/-- `isInline( node, tagName )`. -/
def isInlineNode (n : DNode) (tagName : Option String) : Bool :=
  isPhrasingContent n || isInlineForTag n.nodeName tagName

mutual

/-- `deepCheck( nodes, tagName )`: every element and its element
descendants are inline.  The source iterates `node.children` (element
children only); text children, which that getter skips, are vacuously
accepted here. -/
def deepCheck : List DNode → Option String → Bool
  | [], _ => true
  | n :: ns, t => deepCheckNode n t && deepCheck ns t

def deepCheckNode : DNode → Option String → Bool
  | .text _, _ => true
  | .element tag attrs cs, t =>
    isInlineNode (.element tag attrs cs) t && deepCheck cs t

end

/-- `nodes.some( isDoubleBR )` where `nodes = Array.from( doc.body.children )`:
`isDoubleBR( node )` holds when the node is a `BR` whose immediately
preceding sibling (`previousSibling`, any node type) is also a `BR`;
equivalently, the full child-node list has two adjacent `br` elements. -/
def someDoubleBR : List DNode → Bool
  | a :: b :: rest =>
    (a.nodeName == "br" && b.nodeName == "br") || someDoubleBR (b :: rest)
  | _ => false

/-- `isInlineContent( HTML, tagName )` over the parsed body's child
nodes: no double `BR` among the top-level children, and every top-level
element passes `deepCheck`. -/
def isInlineContent (bodyChildNodes : List DNode) (tagName : Option String) : Bool :=
  !someDoubleBR bodyChildNodes && deepCheck bodyChildNodes tagName

/-! ### getBlockContentSchema (utils.js lines 62-89) -/

/-- Replace the entry at a key (JavaScript `accu[ tag ].x = ...`
mutations on an existing property; position preserved). -/
def updateKey (s : Schema) (k : String) (e : SchemaEntry) : Schema :=
  s.map (fun p => if p.1 == k then (k, e) else p)

/-- JavaScript object spread `{ ...a, ...b }` on children maps: the keys
of `a` in order (values overridden by `b` where present), then the keys
of `b` not in `a`, in order. -/
def spreadMerge (a b : Schema) : Schema :=
  (a.map (fun p => (p.1, (lookupKey b p.1).getD p.2))) ++
    b.filter (fun q => !(hasKey a q.1))

/-- The per-tag merge of `getBlockContentSchema` when `accu` already has
the tag: `children` is a shallow spread-merge (only when either side has
children), `attributes` and `require` are concatenated with `[]`
defaults, and `classes` is left untouched (the first contributor's
classes survive). -/
def mergeEntry (old new : SchemaEntry) : SchemaEntry :=
  .mk (some (old.attributes.getD [] ++ new.attributes.getD []))
    old.classes
    (if old.children.isSome || new.children.isSome then
      some (spreadMerge (old.children.getD []) (new.children.getD []))
     else none)
    (some (old.required.getD [] ++ new.required.getD []))

/-- One step of the `Object.keys( schema ).forEach` loop: merge the pair
into the accumulator, or append it as a fresh key
(`accu = { ...accu, [ tag ]: schema[ tag ] }`). -/
def mergeTag (accu : Schema) (p : String × SchemaEntry) : Schema :=
  match lookupKey accu p.1 with
  | some old => updateKey accu p.1 (mergeEntry old p.2)
  | none => accu ++ [p]

/-- `getBlockContentSchema( transforms )`: a left fold over the
transforms' partial schemas (a transform without a schema contributes
the empty list). -/
def getBlockContentSchema (transforms : List Schema) : Schema :=
  transforms.foldl (fun accu s => s.foldl mergeTag accu) []

/-! ### A mutable DOM for the filter engine

`deepFilterNodeList` hands each node to arbitrary mutating filters, which
may relocate nodes anywhere in the owning document (the embedded-content
reducer moves images up beside their paragraph).  Mutation is modelled by
threading a whole-document value: nodes carry stable numeric identities,
and a `Doc` is the document tree (`html` element containing `body`) plus
the detached subtrees created by `doc.createElement` and a fresh-id
counter. -/

/-- A DOM node with identity. -/
inductive ANode : Type where
  | element (id : Nat) (tag : String) (attrs : List (String × String)) (children : List ANode)
  | text (id : Nat) (s : String)

def ANode.nid : ANode → Nat
  | .element i _ _ _ => i
  | .text i _ => i

def ANode.childrenOf : ANode → List ANode
  | .element _ _ _ cs => cs
  | .text _ _ => []

def ANode.tagOf : ANode → Option String
  | .element _ t _ _ => some t
  | .text _ _ => none

mutual

/-- Forget identities, recovering a plain `DNode` tree (for
serialization). -/
def stripId : ANode → DNode
  | .element _ t a cs => .element t a (stripIds cs)
  | .text _ s => .text s

def stripIds : List ANode → List DNode
  | [] => []
  | n :: ns => stripId n :: stripIds ns

end

/-- The owning document: the `html` tree (whose sole modelled child is
`body`), the detached subtrees, and the next fresh node id. -/
structure Doc : Type where
  root : ANode
  detached : List ANode
  nextId : Nat

mutual

/-- Find the subtree with the given id. -/
def findIn (target : Nat) : ANode → Option ANode
  | .element i t a cs => if i == target then some (.element i t a cs) else findInList target cs
  | .text i s => if i == target then some (.text i s) else none

def findInList (target : Nat) : List ANode → Option ANode
  | [] => none
  | n :: ns =>
    match findIn target n with
    | some r => some r
    | none => findInList target ns

end

/-- `doc.contains( node )`: the node is in the document tree (detached
subtrees do not count). -/
def Doc.containsId (d : Doc) (target : Nat) : Bool :=
  (findIn target d.root).isSome

/-- Find a node anywhere: in the document tree or among detached
subtrees. -/
def Doc.getNode (d : Doc) (target : Nat) : Option ANode :=
  match findIn target d.root with
  | some r => some r
  | none => findInList target d.detached

/-- `Array.from( node.childNodes )` read live at the time of the call. -/
def Doc.childIds (d : Doc) (target : Nat) : List Nat :=
  match d.getNode target with
  | some n => n.childrenOf.map ANode.nid
  | none => []

mutual

/-- Find the parent of the node with the given id inside one tree. -/
def parentIn (target : Nat) : ANode → Option ANode
  | .element i t a cs =>
    if cs.any (fun c => c.nid == target) then some (.element i t a cs)
    else parentInList target cs
  | .text _ _ => none

def parentInList (target : Nat) : List ANode → Option ANode
  | [] => none
  | n :: ns =>
    match parentIn target n with
    | some r => some r
    | none => parentInList target ns

end

/-- `node.parentNode` / `node.parentElement` (every parent in these
documents is an element). -/
def Doc.parentOf (d : Doc) (target : Nat) : Option ANode :=
  match parentIn target d.root with
  | some r => some r
  | none => parentInList target d.detached

mutual

/-- Detach the subtree with the given id from a tree; return the pruned
tree and the removed subtree, if found. -/
def extractFrom (target : Nat) : ANode → ANode × Option ANode
  | .element i t a cs =>
    let (cs', f) := extractFromList target cs
    (.element i t a cs', f)
  | .text i s => (.text i s, none)

def extractFromList (target : Nat) : List ANode → List ANode × Option ANode
  | [] => ([], none)
  | c :: cs =>
    if c.nid == target then (cs, some c)
    else
      match extractFrom target c with
      | (c', some x) => (c' :: cs, some x)
      | (_, none) =>
        let (cs', f) := extractFromList target cs
        (c :: cs', f)

end

/-- Detach the subtree with the given id from the whole document (tree or
detached space, including whole detached roots). -/
def Doc.extract (d : Doc) (target : Nat) : Doc × Option ANode :=
  match extractFrom target d.root with
  | (root', some x) => ({ d with root := root' }, some x)
  | (_, none) =>
    match d.detached.findIdx? (fun r => r.nid == target) with
    | some i => ({ d with detached := d.detached.eraseIdx i },
                 d.detached.get? i)
    | none =>
      let rec go : List ANode → List ANode × Option ANode
        | [] => ([], none)
        | r :: rs =>
          match extractFrom target r with
          | (r', some x) => (r' :: rs, some x)
          | (_, none) =>
            let (rs', f) := go rs
            (r :: rs', f)
      let (det', f) := go d.detached
      ({ d with detached := det' }, f)

mutual

/-- Insert `sub` immediately before the child with id `refId`, wherever
that child sits in the tree; the returned flag reports success. -/
def insBeforeIn (refId : Nat) (sub : ANode) : ANode → ANode × Bool
  | .element i t a cs =>
    let (cs', ok) := insBeforeInList refId sub cs
    (.element i t a cs', ok)
  | .text i s => (.text i s, false)

def insBeforeInList (refId : Nat) (sub : ANode) : List ANode → List ANode × Bool
  | [] => ([], false)
  | c :: cs =>
    if c.nid == refId then (sub :: c :: cs, true)
    else
      match insBeforeIn refId sub c with
      | (c', true) => (c' :: cs, true)
      | (_, false) =>
        let (cs', ok) := insBeforeInList refId sub cs
        (c :: cs', ok)

end

mutual

/-- Append `sub` as last child of the element with id `parentId`. -/
def appendIn (parentId : Nat) (sub : ANode) : ANode → ANode × Bool
  | .element i t a cs =>
    if i == parentId then (.element i t a (cs ++ [sub]), true)
    else
      let (cs', ok) := appendInList parentId sub cs
      (.element i t a cs', ok)
  | .text i s => (.text i s, false)

def appendInList (parentId : Nat) (sub : ANode) : List ANode → List ANode × Bool
  | [] => ([], false)
  | c :: cs =>
    match appendIn parentId sub c with
    | (c', true) => (c' :: cs, true)
    | (_, false) =>
      let (cs', ok) := appendInList parentId sub cs
      (c :: cs', ok)

end

/-- `referenceParent.insertBefore( sub, reference )` as a whole-document
move: detach `sub`'s subtree, then splice it in immediately before the
reference node (document tree first, then detached subtrees). -/
def Doc.moveBefore (d : Doc) (subId refId : Nat) : Doc :=
  match d.extract subId with
  | (d1, some sub) =>
    match insBeforeIn refId sub d1.root with
    | (root', true) => { d1 with root := root' }
    | (_, false) =>
      let (det', ok) := insBeforeInList refId sub d1.detached
      if ok then { d1 with detached := det' } else d1
  | (_, none) => d

/-- `target.appendChild( sub )` as a whole-document move. -/
def Doc.moveAppend (d : Doc) (parentId subId : Nat) : Doc :=
  match d.extract subId with
  | (d1, some sub) =>
    match appendIn parentId sub d1.root with
    | (root', true) => { d1 with root := root' }
    | (_, false) =>
      let (det', ok) := appendInList parentId sub d1.detached
      if ok then { d1 with detached := det' } else d1
  | (_, none) => d

/-! ### deepFilterNodeList (utils.js lines 142-155) -/

/-- A node filter, as the engine sees it: it receives the document state
and the node (by identity) and returns the mutated document.  The real
signature `( node, doc, schema )` closes over the schema. -/
def Filt : Type := Doc → Nat → Doc

/-- A recorded filter invocation: the node id and the document state at
the moment the filter ran. -/
def Ev : Type := Nat × Doc

/-- The `filters.forEach` loop: before each filter, re-check
`doc.contains( node )` and skip the filter when the node is no longer
attached.  Every actual invocation is recorded in the returned trace. -/
def runFiltersOn : List Filt → Doc → Nat → Doc × List Ev
  | [], d, _ => (d, [])
  | f :: fs, d, id =>
    if d.containsId id then
      let r := runFiltersOn fs (f d id) id
      (r.1, (id, d) :: r.2)
    else runFiltersOn fs d id

/-- `deepFilterNodeList( nodeList, filters, doc, schema )` over a
snapshot of node ids: for each node, first recurse into its current
(live) children, then run the filters on the node itself.  `fuel` bounds
the recursion (the DOM recursion is finite because every snapshot is
finite; any fuel at least the number of processed nodes gives the source
behavior). -/
def deepFilterNodeList (filters : List Filt) : Nat → Doc → List Nat → Doc × List Ev
  | 0, d, _ => (d, [])
  | _ + 1, d, [] => (d, [])
  | fuel + 1, d, id :: ids =>
    let r1 := deepFilterNodeList filters fuel d (d.childIds id)
    let r2 := runFiltersOn filters r1.1 id
    let r3 := deepFilterNodeList filters fuel r2.1 ids
    (r3.1, r1.2 ++ r2.2 ++ r3.2)

/-! ### embeddedContentReducer (embedded-content-reducer.js) -/

/-- `isEmbedded( node, schema )`: the schema declares a `figure`
container, the node is not a `figcaption`, is not phrasing content, and
its tag is among `figure`'s declared children. -/
def isEmbeddedName (tag : String) (schema : Schema) : Bool :=
  match lookupKey schema "figure" with
  | none => false
  | some e =>
    if tag == "figcaption" || isPhrasingName tag then false
    else hasKey (e.children.getD []) tag

/-- The `while ( wrapper && wrapper.nodeName !== 'P' )` climb up the
parent-element chain; returns the nearest `p` ancestor-or-self, if any.
`fuel` bounds the chain length (any fuel at least the node count of an
acyclic document is enough). -/
def climbToP (d : Doc) : Nat → Nat → Option Nat
  | 0, _ => none
  | fuel + 1, cur =>
    match d.getNode cur with
    | some (.element _ t _ _) =>
      if t == "p" then some cur
      else
        match d.parentOf cur with
        | some p => climbToP d fuel p.nid
        | none => none
    | _ => none

mutual

/-- Node count of a tree. -/
def countNodes : ANode → Nat
  | .element _ _ _ cs => 1 + countList cs
  | .text _ _ => 1

def countList : List ANode → Nat
  | [] => 0
  | n :: ns => countNodes n + countList ns

end

/-- A fuel bound for `climbToP`: more than any parent-chain length in an
acyclic document. -/
def Doc.fuelOf (d : Doc) : Nat :=
  countNodes d.root + countList d.detached + 1

/-- `embeddedContentReducer( node, doc, schema )`: move embedded content
out of paragraphs into fresh `figure` containers; when the node is an
image whose sole parent is a single-child anchor, the anchor moves
instead. -/
def embeddedContentReducer (schema : Schema) : Filt := fun d id =>
  match d.getNode id with
  | none => d
  | some (.text _ _) => d
  | some (.element _ tag _ _) =>
    if !isEmbeddedName tag schema then d
    else
      let nodeToInsert : Nat :=
        match d.parentOf id with
        | some (.element pid ptag _ pcs) =>
          if tag == "img" && pcs.length == 1 && ptag == "a" then pid else id
        | _ => id
      let wrapper : Option Nat := climbToP d d.fuelOf nodeToInsert
      let figId := d.nextId
      let fig : ANode := .element figId "figure" [] []
      let d1 : Doc :=
        { d with detached := d.detached ++ [fig], nextId := d.nextId + 1 }
      let d2 :=
        match wrapper with
        | some w => d1.moveBefore figId w
        | none => d1.moveBefore figId nodeToInsert
      d2.moveAppend figId nodeToInsert

/-- `doc.body`'s children, for reading back `body.innerHTML`. -/
def Doc.bodyChildren (d : Doc) (bodyId : Nat) : List ANode :=
  match d.getNode bodyId with
  | some n => n.childrenOf
  | none => []

/-! ### Schema conformance

The class of trees `cleanNodeList` leaves untouched: every node is valid
for its schema level, carries only allowed attributes and classes, is not
an empty shell where children are declared, satisfies its `require`
constraint, and has children exactly where its entry declares them. -/

/-- The class filtering step fixes the `class` attribute: either absent,
or a non-empty value equal to its own filtration against the allowed
classes. -/
def classOk (e : SchemaEntry) (attrs : List (String × String)) : Bool :=
  match getAttr attrs "class" with
  | none => true
  | some v =>
    v != "" &&
      joinSpace ((splitOnSpace v).filter (fun nm =>
        nm != "" && (e.classes.getD []).contains nm)) == v

mutual

def conformsList (s : Schema) : List DNode → Bool
  | [] => true
  | n :: ns => conformsNode s n && conformsList s ns

def conformsNode (s : Schema) : DNode → Bool
  | .text _ => hasKey s "#text" || hasKey s "3"
  | .element t attrs cs =>
    match lookupKey s t with
    | none => false
    | some e =>
      !(isEmpty (.element t attrs cs) && e.children.isSome) &&
      attrs.all (fun p => p.1 == "class" || (e.attributes.getD []).contains p.1) &&
      classOk e attrs &&
      (match cs, e.children with
       | [], _ => true
       | _ :: _, none => false
       | _ :: _, some csch =>
         ((e.required.getD []).isEmpty || hasDescWithTag (e.required.getD []) cs) &&
         conformsList csch cs)

end

theorem getAttr_some_setAttr {l : List (String × String)} {k v : String}
    (h : getAttr l k = some v) : setAttr l k v = l := by
  induction l with
  | nil => simp [getAttr] at h
  | cons p ps ih =>
    cases hk : (p.1 == k) with
    | true =>
      have h1 : (p :: ps).find? (fun q => q.1 == k) = some p :=
        List.find?_cons_of_pos _ hk
      have hv : p.2 = v := by
        rw [getAttr, h1] at h
        simpa using h
      have hk' : p.1 = k := by simpa using hk
      have hp : p = (k, v) := by rw [← hk', ← hv]
      simp [setAttr, hk, hp]
    | false =>
      have h1 : (p :: ps).find? (fun q => q.1 == k) = ps.find? (fun q => q.1 == k) :=
        List.find?_cons_of_neg _ (by simp [hk])
      have h' : getAttr ps k = some v := by
        rw [getAttr, h1] at h
        exact h
      simp [setAttr, hk, ih h']

theorem getAttr_none_removeAttr {l : List (String × String)} {k : String}
    (h : getAttr l k = none) : removeAttr l k = l := by
  rw [removeAttr, List.filter_eq_self]
  intro p hp
  have hf : l.find? (fun q => q.1 == k) = none := by
    rw [getAttr] at h
    exact Option.map_eq_none'.mp h
  have := List.find?_eq_none.mp hf p hp
  simpa [bne] using this

theorem cleanAttrs_of_conform {e : SchemaEntry} {attrs : List (String × String)}
    (hall : attrs.all (fun p => p.1 == "class" || (e.attributes.getD []).contains p.1) = true)
    (hcls : classOk e attrs = true) : cleanAttrs e attrs = attrs := by
  have hfilter : attrs.filter (fun p =>
      p.1 == "class" || (e.attributes.getD []).contains p.1) = attrs :=
    List.filter_eq_self.mpr (fun a ha => (List.all_eq_true.mp hall) a ha)
  rw [cleanAttrs]
  simp only [hfilter]
  unfold classOk at hcls
  cases hga : getAttr attrs "class" with
  | none =>
    have hsplit : splitOnSpace ((none : Option String).getD "") = [""] := rfl
    simp only [hsplit]
    have hemp : ([""].filter (fun nm => nm != "" && (e.classes.getD []).contains nm)) = [] := by
      simp
    rw [hemp]
    have hi : joinSpace ([] : List String) = "" := rfl
    rw [hi]
    simp [getAttr_none_removeAttr hga]
  | some v =>
    rw [hga] at hcls
    simp only [Bool.and_eq_true] at hcls
    obtain ⟨hne, heq⟩ := hcls
    have heq' : joinSpace ((splitOnSpace v).filter (fun nm =>
        nm != "" && (e.classes.getD []).contains nm)) = v := by
      simpa using heq
    simp only [Option.getD_some, heq']
    rw [if_pos hne]
    exact getAttr_some_setAttr hga

theorem isEmpty_false_ne_nil {t : String} {attrs : List (String × String)}
    {cs : List DNode} (h : isEmpty (.element t attrs cs) = false) : cs ≠ [] := by
  intro hnil
  rw [hnil] at h
  simp [isEmpty, allEmptyChild] at h

mutual

theorem cleanSiblings_conform : ∀ (ns : List DNode) (s : Schema) (inl : Bool),
    conformsList s ns = true → cleanSiblings ns s inl = .ok ns
  | [], _, _, _ => rfl
  | n :: rest, s, inl, h => by
    have h' : conformsNode s n = true ∧ conformsList s rest = true := by
      simpa [conformsList, Bool.and_eq_true] using h
    have h1 := cleanNode_conform n rest s inl h'.1
    have h2 := cleanSiblings_conform rest s inl h'.2
    rw [cleanSiblings, h1, h2]
    rfl

theorem cleanNode_conform : ∀ (n : DNode) (rest : List DNode) (s : Schema) (inl : Bool),
    conformsNode s n = true → cleanNode n rest s inl = .ok [n]
  | .text str, rest, s, inl, h => by
    have hv : (hasKey s "#text" || hasKey s "3") = true := by
      simpa [conformsNode] using h
    rw [cleanNode, if_pos hv]
  | .element t attrs cs, rest, s, inl, h => by
    rw [conformsNode] at h
    split at h
    next heq => exact absurd h (by simp)
    next e heq =>
      simp only [Bool.and_eq_true] at h
      have hne := h.1.1.1
      have hall := h.1.1.2
      have hcls := h.1.2
      have hch := h.2
      clear h
      have hv : (hasKey s t || hasKey s "1") = true := by
        simp [hasKey, heq]
      have hattrs : cleanAttrs e attrs = attrs := cleanAttrs_of_conform hall hcls
      rw [cleanNode, if_pos hv]
      split
      next hnone => rw [heq] at hnone; exact absurd hnone (by simp)
      next e2 hsome =>
      rw [heq] at hsome
      injection hsome with hinj
      subst hinj
      have hX : (isEmpty (DNode.element t attrs cs) && e.children.isSome) = false := by
        revert hne
        cases isEmpty (DNode.element t attrs cs) && e.children.isSome <;> simp
      rw [if_neg (by simp [hX])]
      simp only [hattrs]
      revert hch hX
      cases cs with
      | nil => intro hch hX; simp
      | cons c cs' =>
        intro hch hX
        rw [if_neg (by simp)]
        cases hech : e.children with
        | none => rw [hech] at hch; exact absurd hch (by simp)
        | some csch =>
          rw [hech] at hch
          simp only [Bool.and_eq_true] at hch
          obtain ⟨hreq, hconf⟩ := hch
          have hcond : (!(e.required.getD []).isEmpty &&
              !hasDescWithTag (e.required.getD []) (c :: cs')) = false := by
            rcases Bool.or_eq_true _ _ |>.mp hreq with h1 | h1 <;> simp [h1]
          simp [hcond, cleanSiblings_conform (c :: cs') csch inl hconf]

end

/-! ## Concrete material shared by the claim theorems -/

/-- The empty schema entry `{}`. -/
def emptyEntry : SchemaEntry := .mk none none none none

/-- Schema `{ div: { children: { p: { children: { img: {} } } } } }`. -/
def c1Schema : Schema :=
  [("div", .mk none none
    (some [("p", .mk none none (some [("img", emptyEntry)]) none)]) none)]

/-- The parse of `<div><p>x</p></div>`. -/
def c1Input : List DNode := [.element "div" [] [.element "p" [] [.text "x"]]]

/-- Schema `{ em: { children: { 3: {} } } }` and a conformant input, for
the C1 witness. -/
def c1WitSchema : Schema := [("em", .mk none none (some [("3", emptyEntry)]) none)]

def c1WitInput : List DNode := [.element "em" [] [.text "hi"]]

/-- C1 counterexample.  Sanitizing `<div><p>x</p></div>` against
`c1Schema` yields `<div><p></p></div>` (the text node is invalid inside
`p` and is removed, but `p`'s new emptiness is not re-checked), while
sanitizing that output again yields the empty string (`div` is now an
empty shell with declared children and is removed).  So
`removeInvalidHTML` is not idempotent. -/
theorem c1_counterexample :
    removeInvalidHTML c1Input c1Schema false = .ok "<div><p></p></div>" ∧
    removeInvalidHTML [.element "div" [] [.element "p" [] []]] c1Schema false = .ok "" ∧
    ("<div><p></p></div>" : String) ≠ "" := by
  refine ⟨rfl, rfl, by decide⟩

/-- C1 amended: sanitization is the identity on schema-conformant trees
(every node valid at its level, only allowed attributes and classes, no
empty shell with declared children, `require` satisfied, children exactly
where declared); hence a sanitization pass whose output is conformant is
not changed by a second pass, but idempotence fails in general
(`c1_counterexample`). -/
theorem c1_amended (ns : List DNode) (s : Schema) (inl : Bool)
    (h : conformsList s ns = true) :
    cleanSiblings ns s inl = .ok ns ∧
    removeInvalidHTML ns s inl = .ok (serializeList ns) := by
  have h1 := cleanSiblings_conform ns s inl h
  exact ⟨h1, by rw [removeInvalidHTML, h1]⟩

/-- Witness for `c1_amended` at a concrete conformant input. -/
theorem c1_amended_witness :
    cleanSiblings c1WitInput c1WitSchema true = .ok c1WitInput ∧
    removeInvalidHTML c1WitInput c1WitSchema true = .ok "<em>hi</em>" := by
  have h := c1_amended c1WitInput c1WitSchema true rfl
  exact ⟨h.1, h.2⟩

/-! ## Characterizing `getBlockContentSchema`

The composed schema's per-tag attribute list, require list and
children-key set are characterized as unions over the contributing
transforms; these lemmas drive C2 and C3. -/

theorem lookupKey_cons (k0 : String) (e0 : SchemaEntry) (s : Schema) (k : String) :
    lookupKey ((k0, e0) :: s) k = if k0 == k then some e0 else lookupKey s k := by
  cases h : (k0 == k) with
  | true =>
    rw [lookupKey, List.find?_cons_of_pos _ (by simpa using h)]
    simp [h]
  | false =>
    rw [lookupKey, List.find?_cons_of_neg _ (by simp [h])]
    simp [h, lookupKey]

theorem isSome_map_proj {A B : Type} (f : A → B) (o : Option A) :
    (o.map f).isSome = o.isSome := by
  cases o <;> rfl

theorem hasKey_iff_mem (s : Schema) (k : String) :
    hasKey s k = true ↔ k ∈ s.map Prod.fst := by
  rw [hasKey, lookupKey, isSome_map_proj]
  rw [List.find?_isSome]
  constructor
  · rintro ⟨x, hx, hk⟩
    exact List.mem_map.mpr ⟨x, hx, by simpa using hk⟩
  · intro hk
    rcases List.mem_map.mp hk with ⟨x, hx, hxk⟩
    exact ⟨x, hx, by simp [hxk]⟩

theorem lookupKey_append (s1 s2 : Schema) (k : String) :
    lookupKey (s1 ++ s2) k = (lookupKey s1 k).or (lookupKey s2 k) := by
  rw [lookupKey, List.find?_append]
  cases h : s1.find? (fun p => p.1 == k) <;> simp [h, lookupKey]

theorem updateKey_cons_pos {p : String × SchemaEntry} {k : String}
    (ps : List (String × SchemaEntry)) (e' : SchemaEntry)
    (hpk : (p.1 == k) = true) :
    updateKey (p :: ps) k e' = (k, e') :: updateKey ps k e' := by
  simp only [updateKey, List.map]
  rw [if_pos hpk]

theorem updateKey_cons_neg {p : String × SchemaEntry} {k : String}
    (ps : List (String × SchemaEntry)) (e' : SchemaEntry)
    (hpk : (p.1 == k) = false) :
    updateKey (p :: ps) k e' = p :: updateKey ps k e' := by
  simp only [updateKey, List.map]
  rw [if_neg (by simp [hpk])]

theorem lookupKey_updateKey_self (s : Schema) (k : String) (e' : SchemaEntry)
    (h : hasKey s k = true) : lookupKey (updateKey s k e') k = some e' := by
  induction s with
  | nil => simp [hasKey, lookupKey] at h
  | cons p ps ih =>
    cases hpk : (p.1 == k) with
    | true =>
      rw [updateKey_cons_pos ps e' hpk, lookupKey_cons]
      simp
    | false =>
      have h' : hasKey ps k = true := by
        rw [hasKey, ← Prod.eta p, lookupKey_cons, hpk] at h
        exact h
      rw [updateKey_cons_neg ps e' hpk, ← Prod.eta p, lookupKey_cons, hpk, ih h']
      simp

theorem lookupKey_updateKey_ne (s : Schema) (k : String) (e' : SchemaEntry)
    (k' : String) (h : k' ≠ k) : lookupKey (updateKey s k e') k' = lookupKey s k' := by
  induction s with
  | nil => rfl
  | cons p ps ih =>
    cases hpk : (p.1 == k) with
    | true =>
      have hkne : (k == k') = false := by
        cases hc : (k == k') with
        | false => rfl
        | true => exact absurd ((by simpa using hc : k = k').symm) h
      have hpne : (p.1 == k') = false := by
        have hpkk : p.1 = k := by simpa using hpk
        rw [hpkk]
        exact hkne
      rw [updateKey_cons_pos ps e' hpk, lookupKey_cons, hkne, ← Prod.eta p,
        lookupKey_cons, hpne, ih]
      simp
    | false =>
      rw [updateKey_cons_neg ps e' hpk, ← Prod.eta p, lookupKey_cons, lookupKey_cons, ih]

/-- Per-tag field extraction: the projection `g` of the entry at a tag,
or `[]` when absent. -/
def fieldAt (g : SchemaEntry → List String) (s : Schema) (tag : String) :
    List String :=
  match lookupKey s tag with
  | some e => g e
  | none => []

/-- Attribute list of the composed entry at a tag. -/
def attrsAt : Schema → String → List String :=
  fieldAt (fun e => e.attributes.getD [])

/-- Require list of the composed entry at a tag. -/
def requiredAt : Schema → String → List String :=
  fieldAt (fun e => e.required.getD [])

/-- Child-tag keys of the composed entry at a tag. -/
def childKeysAt : Schema → String → List String :=
  fieldAt (fun e => (e.children.getD []).map Prod.fst)

theorem mem_keys_spreadMerge (a b : Schema) (k : String) :
    k ∈ (spreadMerge a b).map Prod.fst ↔
      k ∈ a.map Prod.fst ∨ k ∈ b.map Prod.fst := by
  rw [spreadMerge, List.map_append, List.mem_append, List.map_map]
  have h1 : (a.map (Prod.fst ∘ fun p => (p.1, (lookupKey b p.1).getD p.2))) =
      a.map Prod.fst := by
    apply List.map_congr_left
    intro p _
    rfl
  rw [h1]
  constructor
  · rintro (h | h)
    · exact Or.inl h
    · rcases List.mem_map.mp h with ⟨q, hq, hqk⟩
      exact Or.inr (List.mem_map.mpr ⟨q, (List.mem_filter.mp hq).1, hqk⟩)
  · rintro (h | h)
    · exact Or.inl h
    · by_cases ha : k ∈ a.map Prod.fst
      · exact Or.inl ha
      · refine Or.inr ?_
        rcases List.mem_map.mp h with ⟨q, hq, hqk⟩
        refine List.mem_map.mpr ⟨q, List.mem_filter.mpr ⟨hq, ?_⟩, hqk⟩
        have : hasKey a q.1 = false := by
          cases hh : hasKey a q.1 with
          | true => exact absurd (hqk ▸ (hasKey_iff_mem a q.1).mp hh) ha
          | false => rfl
        simp [this]

theorem mem_fieldAt_mergeTag (g : SchemaEntry → List String)
    (hg : ∀ o n a, a ∈ g (mergeEntry o n) ↔ a ∈ g o ∨ a ∈ g n)
    (accu : Schema) (p : String × SchemaEntry) (k : String) (a : String) :
    a ∈ fieldAt g (mergeTag accu p) k ↔
      a ∈ fieldAt g accu k ∨ (p.1 = k ∧ a ∈ g p.2) := by
  rw [mergeTag]
  cases hacc : lookupKey accu p.1 with
  | some old =>
    by_cases hk : p.1 = k
    · subst hk
      have hupd : lookupKey (updateKey accu p.1 (mergeEntry old p.2)) p.1 =
          some (mergeEntry old p.2) :=
        lookupKey_updateKey_self accu p.1 _ (by simp [hasKey, hacc])
      simp only [fieldAt, hupd, hacc]
      rw [hg old p.2 a]
      tauto
    · have hupd := lookupKey_updateKey_ne accu p.1 (mergeEntry old p.2) k
        (fun hc => hk hc.symm)
      simp only [fieldAt, hupd]
      tauto
  | none =>
    by_cases hk : p.1 = k
    · subst hk
      have happ : lookupKey (accu ++ [p]) p.1 = some p.2 := by
        rw [lookupKey_append, hacc, ← Prod.eta p, lookupKey_cons]
        simp
      simp only [fieldAt, happ, hacc]
      simp
    · have happ : lookupKey (accu ++ [p]) k = lookupKey accu k := by
        rw [lookupKey_append, ← Prod.eta p, lookupKey_cons]
        have hne : (p.1 == k) = false := by
          cases hc : (p.1 == k) with
          | false => rfl
          | true => exact absurd (by simpa using hc) hk
        rw [hne]
        cases lookupKey accu k <;> rfl
      simp only [fieldAt, happ]
      tauto

theorem mem_fieldAt_foldl (g : SchemaEntry → List String)
    (hg : ∀ o n a, a ∈ g (mergeEntry o n) ↔ a ∈ g o ∨ a ∈ g n)
    (ts : Schema) (accu : Schema) (k : String) (a : String) :
    a ∈ fieldAt g (ts.foldl mergeTag accu) k ↔
      a ∈ fieldAt g accu k ∨ ∃ p ∈ ts, p.1 = k ∧ a ∈ g p.2 := by
  induction ts generalizing accu with
  | nil => simp
  | cons p ts ih =>
    rw [List.foldl_cons, ih (mergeTag accu p), mem_fieldAt_mergeTag g hg]
    constructor
    · rintro ((h | h) | ⟨q, hq, hqs⟩)
      · exact Or.inl h
      · exact Or.inr ⟨p, List.mem_cons_self p ts, h⟩
      · exact Or.inr ⟨q, List.mem_cons_of_mem p hq, hqs⟩
    · rintro (h | ⟨q, hq, hqs⟩)
      · exact Or.inl (Or.inl h)
      · rcases List.mem_cons.mp hq with rfl | hq'
        · exact Or.inl (Or.inr hqs)
        · exact Or.inr ⟨q, hq', hqs⟩

theorem mem_fieldAt_compose (g : SchemaEntry → List String)
    (hg : ∀ o n a, a ∈ g (mergeEntry o n) ↔ a ∈ g o ∨ a ∈ g n)
    (ts : List Schema) (k : String) (a : String) :
    a ∈ fieldAt g (getBlockContentSchema ts) k ↔
      ∃ s ∈ ts, ∃ p ∈ s, p.1 = k ∧ a ∈ g p.2 := by
  suffices hgen : ∀ accu : Schema,
      a ∈ fieldAt g (ts.foldl (fun accu s => s.foldl mergeTag accu) accu) k ↔
        a ∈ fieldAt g accu k ∨ ∃ s ∈ ts, ∃ p ∈ s, p.1 = k ∧ a ∈ g p.2 by
    rw [getBlockContentSchema, hgen []]
    simp [fieldAt, lookupKey]
  induction ts with
  | nil => intro accu; simp
  | cons s ts ih =>
    intro accu
    rw [List.foldl_cons, ih (s.foldl mergeTag accu), mem_fieldAt_foldl g hg]
    constructor
    · rintro ((h | ⟨p, hp, hps⟩) | ⟨s', hs', hrest⟩)
      · exact Or.inl h
      · exact Or.inr ⟨s, List.mem_cons_self s ts, p, hp, hps⟩
      · exact Or.inr ⟨s', List.mem_cons_of_mem s hs', hrest⟩
    · rintro (h | ⟨s', hs', hrest⟩)
      · exact Or.inl (Or.inl h)
      · rcases List.mem_cons.mp hs' with rfl | hs''
        · exact Or.inl (Or.inr hrest)
        · exact Or.inr ⟨s', hs'', hrest⟩

theorem hg_attrs (o n : SchemaEntry) (a : String) :
    a ∈ (mergeEntry o n).attributes.getD [] ↔
      a ∈ o.attributes.getD [] ∨ a ∈ n.attributes.getD [] := by
  simp [mergeEntry, SchemaEntry.attributes]

theorem hg_required (o n : SchemaEntry) (a : String) :
    a ∈ (mergeEntry o n).required.getD [] ↔
      a ∈ o.required.getD [] ∨ a ∈ n.required.getD [] := by
  simp [mergeEntry, SchemaEntry.required]

theorem hg_childKeys (o n : SchemaEntry) (a : String) :
    a ∈ ((mergeEntry o n).children.getD []).map Prod.fst ↔
      a ∈ (o.children.getD []).map Prod.fst ∨
        a ∈ (n.children.getD []).map Prod.fst := by
  cases o with
  | mk oa ocl och orq =>
    cases n with
    | mk na ncl nch nrq =>
      cases och with
      | none =>
        cases nch with
        | none => simp [mergeEntry, SchemaEntry.children]
        | some ncs =>
          have hme : (mergeEntry (SchemaEntry.mk oa ocl none orq)
              (SchemaEntry.mk na ncl (some ncs) nrq)).children =
              some (spreadMerge [] ncs) := rfl
          rw [hme, Option.getD_some, mem_keys_spreadMerge]
          exact Iff.rfl
      | some ocs =>
        cases nch with
        | none =>
          have hme : (mergeEntry (SchemaEntry.mk oa ocl (some ocs) orq)
              (SchemaEntry.mk na ncl none nrq)).children =
              some (spreadMerge ocs []) := rfl
          rw [hme, Option.getD_some, mem_keys_spreadMerge]
          exact Iff.rfl
        | some ncs =>
          have hme : (mergeEntry (SchemaEntry.mk oa ocl (some ocs) orq)
              (SchemaEntry.mk na ncl (some ncs) nrq)).children =
              some (spreadMerge ocs ncs) := rfl
          rw [hme, Option.getD_some, mem_keys_spreadMerge]
          exact Iff.rfl

/-- Schema `{ figure: { children: { img: {} }, require: [ 'img' ] }, em: {} }`. -/
def c4CexSchema : Schema :=
  [("figure", .mk none none (some [("img", emptyEntry)]) (some ["img"])),
   ("em", emptyEntry)]

/-- The parse of `<figure><em></em></figure>`. -/
def c4CexInput : List DNode := [.element "figure" [] [.element "em" [] []]]

/-- `hasKey` on the composed schema: a tag is present iff some transform
contributes it. -/
theorem hasKey_compose_iff (ts : List Schema) (k : String) :
    hasKey (getBlockContentSchema ts) k = true ↔ ∃ s ∈ ts, ∃ p ∈ s, p.1 = k := by
  have hgen := mem_fieldAt_compose (fun _ => ["x"]) (by intro o n a; simp) ts k "x"
  have hiff : ∀ (s : Schema),
      ("x" ∈ fieldAt (fun _ => ["x"]) s k) ↔ hasKey s k = true := by
    intro s
    rw [fieldAt, hasKey]
    cases lookupKey s k <;> simp
  rw [← hiff, hgen]
  simp

theorem mem_attrsAt_compose (ts : List Schema) (tag x : String) :
    x ∈ attrsAt (getBlockContentSchema ts) tag ↔
      ∃ s ∈ ts, ∃ p ∈ s, p.1 = tag ∧ x ∈ p.2.attributes.getD [] :=
  mem_fieldAt_compose (fun e => e.attributes.getD []) hg_attrs ts tag x

theorem mem_requiredAt_compose (ts : List Schema) (tag x : String) :
    x ∈ requiredAt (getBlockContentSchema ts) tag ↔
      ∃ s ∈ ts, ∃ p ∈ s, p.1 = tag ∧ x ∈ p.2.required.getD [] :=
  mem_fieldAt_compose (fun e => e.required.getD []) hg_required ts tag x

theorem mem_childKeysAt_compose (ts : List Schema) (tag x : String) :
    x ∈ childKeysAt (getBlockContentSchema ts) tag ↔
      ∃ s ∈ ts, ∃ p ∈ s, p.1 = tag ∧ x ∈ (p.2.children.getD []).map Prod.fst :=
  mem_fieldAt_compose (fun e => (e.children.getD []).map Prod.fst) hg_childKeys ts tag x

/-! ## C2: schema composition under permutation -/

/-- Transform schemas whose `div` entries contribute colliding children
entries for `span`, with different attribute allowances. -/
def c2sA : Schema :=
  [("div", .mk none none (some [("span", .mk (some ["a"]) none none none)]) none)]

def c2sB : Schema :=
  [("div", .mk none none (some [("span", .mk (some ["b"]) none none none)]) none)]

/-- The composed entry's attribute list for a child tag nested one level
down. -/
def childAttrs (s : Schema) (tag child : String) : List String :=
  match lookupKey s tag with
  | some e =>
    match lookupKey (e.children.getD []) child with
    | some e2 => e2.attributes.getD []
    | none => []
  | none => []

/-- C2 counterexample.  The children merge is a shallow object spread, so
a colliding child entry comes wholly from the later contributor: composing
`[c2sA, c2sB]` gives `div > span` attributes `["b"]`, the reverse order
gives `["a"]` — the two composed schemas are not equal (not even as sets)
per tag, so composition is not order-independent. -/
theorem c2_counterexample :
    childAttrs (getBlockContentSchema [c2sA, c2sB]) "div" "span" = ["b"] ∧
    childAttrs (getBlockContentSchema [c2sB, c2sA]) "div" "span" = ["a"] ∧
    ¬("a" ∈ childAttrs (getBlockContentSchema [c2sA, c2sB]) "div" "span" ↔
      "a" ∈ childAttrs (getBlockContentSchema [c2sB, c2sA]) "div" "span") := by
  refine ⟨rfl, rfl, by decide⟩

/-- C2 amended: permuting the transforms preserves the composed tag key
set and, per tag, the attribute set, the require set and the children
key set; it does not preserve colliding children entries
(`c2_counterexample`) or classes. -/
theorem c2_amended (ts1 ts2 : List Schema) (hperm : List.Perm ts1 ts2)
    (tag : String) :
    hasKey (getBlockContentSchema ts1) tag = hasKey (getBlockContentSchema ts2) tag ∧
    (∀ x, x ∈ attrsAt (getBlockContentSchema ts1) tag ↔
      x ∈ attrsAt (getBlockContentSchema ts2) tag) ∧
    (∀ x, x ∈ requiredAt (getBlockContentSchema ts1) tag ↔
      x ∈ requiredAt (getBlockContentSchema ts2) tag) ∧
    (∀ x, x ∈ childKeysAt (getBlockContentSchema ts1) tag ↔
      x ∈ childKeysAt (getBlockContentSchema ts2) tag) := by
  have hex : ∀ (P : Schema → Prop), (∃ s ∈ ts1, P s) ↔ (∃ s ∈ ts2, P s) := by
    intro P
    constructor
    · rintro ⟨s, hs, hp⟩
      exact ⟨s, hperm.subset hs, hp⟩
    · rintro ⟨s, hs, hp⟩
      exact ⟨s, hperm.symm.subset hs, hp⟩
  refine ⟨?_, ?_, ?_, ?_⟩
  · have hiff : hasKey (getBlockContentSchema ts1) tag = true ↔
        hasKey (getBlockContentSchema ts2) tag = true :=
      (hasKey_compose_iff ts1 tag).trans
        ((hex _).trans (hasKey_compose_iff ts2 tag).symm)
    cases hA : hasKey (getBlockContentSchema ts1) tag <;>
      cases hB : hasKey (getBlockContentSchema ts2) tag <;> simp_all
  · intro x
    exact (mem_attrsAt_compose ts1 tag x).trans
      ((hex _).trans (mem_attrsAt_compose ts2 tag x).symm)
  · intro x
    exact (mem_requiredAt_compose ts1 tag x).trans
      ((hex _).trans (mem_requiredAt_compose ts2 tag x).symm)
  · intro x
    exact (mem_childKeysAt_compose ts1 tag x).trans
      ((hex _).trans (mem_childKeysAt_compose ts2 tag x).symm)

/-- Transform schemas contributing complementary allowances for `td`. -/
def c3sC : Schema := [("td", .mk (some ["colspan"]) none none none)]

def c3sD : Schema :=
  [("td", .mk (some ["rowspan"]) none (some [("x", emptyEntry)]) (some ["y"]))]

/-- Witness for `c2_amended` on a concrete transposition. -/
theorem c2_amended_witness :
    hasKey (getBlockContentSchema [c3sC, c3sD]) "td" =
      hasKey (getBlockContentSchema [c3sD, c3sC]) "td" ∧
    ("colspan" ∈ attrsAt (getBlockContentSchema [c3sC, c3sD]) "td" ↔
      "colspan" ∈ attrsAt (getBlockContentSchema [c3sD, c3sC]) "td") := by
  have h := c2_amended [c3sC, c3sD] [c3sD, c3sC] (List.Perm.swap c3sD c3sC []) "td"
  exact ⟨h.1, h.2.1 "colspan"⟩

/-! ## C3: no contributor's allowance is lost -/

/-- C3 counterexample.  Both transforms allow `div > span`, one with
attribute `a` and one with `b`; the composed schema's `div > span` entry
is `c2sB`'s alone — `a` is gone, so the children merge is an overwrite,
not a deep merge. -/
theorem c3_counterexample :
    childAttrs (getBlockContentSchema [c2sA, c2sB]) "div" "span" = ["b"] ∧
    "a" ∉ childAttrs (getBlockContentSchema [c2sA, c2sB]) "div" "span" := by
  exact ⟨rfl, by decide⟩

/-- C3 amended: at the top level of each tag entry no allowance is lost —
every attribute, every require selector, and every child-tag key
contributed by any transform for a tag is present in the composed entry.
(Colliding children *entries* are overwritten by the last contributor,
and `classes` of later contributors are dropped: `c3_counterexample`.) -/
theorem c3_amended (ts : List Schema) (tag x : String) :
    ((∃ s ∈ ts, ∃ p ∈ s, p.1 = tag ∧ x ∈ p.2.attributes.getD []) →
      x ∈ attrsAt (getBlockContentSchema ts) tag) ∧
    ((∃ s ∈ ts, ∃ p ∈ s, p.1 = tag ∧ x ∈ p.2.required.getD []) →
      x ∈ requiredAt (getBlockContentSchema ts) tag) ∧
    ((∃ s ∈ ts, ∃ p ∈ s, p.1 = tag ∧ x ∈ (p.2.children.getD []).map Prod.fst) →
      x ∈ childKeysAt (getBlockContentSchema ts) tag) :=
  ⟨(mem_attrsAt_compose ts tag x).mpr,
   (mem_requiredAt_compose ts tag x).mpr,
   (mem_childKeysAt_compose ts tag x).mpr⟩

/-- Witness for `c3_amended` on concrete contributors. -/
theorem c3_amended_witness :
    "colspan" ∈ attrsAt (getBlockContentSchema [c3sC, c3sD]) "td" ∧
    "y" ∈ requiredAt (getBlockContentSchema [c3sC, c3sD]) "td" ∧
    "x" ∈ childKeysAt (getBlockContentSchema [c3sC, c3sD]) "td" := by
  refine ⟨(c3_amended [c3sC, c3sD] "td" "colspan").1
      ⟨c3sC, List.mem_cons_self _ _, ("td", .mk (some ["colspan"]) none none none),
        List.mem_cons_self _ _, rfl, by decide⟩,
    (c3_amended [c3sC, c3sD] "td" "y").2.1
      ⟨c3sD, by simp [List.mem_cons],
        ("td", .mk (some ["rowspan"]) none (some [("x", emptyEntry)]) (some ["y"])),
        List.mem_cons_self _ _, rfl, by decide⟩,
    (c3_amended [c3sC, c3sD] "td" "x").2.2
      ⟨c3sD, by simp [List.mem_cons],
        ("td", .mk (some ["rowspan"]) none (some [("x", emptyEntry)]) (some ["y"])),
        List.mem_cons_self _ _, rfl, by decide⟩⟩

/-! ## C4: required-descendant failure -/

/-- C4 counterexample.  `<figure><em></em></figure>` has a schema-valid
`em` descendant and no `img`, so by the claim the `figure` should be
unwrapped and `<em></em>` survive; but the node is `isEmpty` (its only
child is an attribute-free empty element), and the emptiness check runs
before the `require` check, so the whole node is removed outright: the
output is empty although cleaning the children alone preserves `em`. -/
theorem c4_counterexample :
    removeInvalidHTML c4CexInput c4CexSchema false = .ok "" ∧
    cleanSiblings [.element "em" [] []] c4CexSchema false =
      .ok [.element "em" [] []] := by
  exact ⟨rfl, rfl⟩

/-- C4 amended: for a valid element whose entry declares both a children
schema and a non-empty `require` list none of whose tags match any
descendant, and which is not `isEmpty`, the sanitizer replaces the node by
its children cleaned against the current (ambient) schema level — an
unwrap that preserves the cleaned descendants in order; the node is not
deleted. -/
theorem c4_amended (t : String) (attrs : List (String × String))
    (cs rest : List DNode) (s : Schema) (inl : Bool) (e : SchemaEntry)
    (csch : Schema)
    (heq : lookupKey s t = some e)
    (hch : e.children = some csch)
    (hreq : (e.required.getD []) ≠ [])
    (hnodesc : hasDescWithTag (e.required.getD []) cs = false)
    (hne : isEmpty (.element t attrs cs) = false) :
    cleanNode (.element t attrs cs) rest s inl = cleanSiblings cs s inl := by
  have hv : (hasKey s t || hasKey s "1") = true := by
    simp [hasKey, heq]
  have hcs : cs ≠ [] := isEmpty_false_ne_nil hne
  have hcse : cs.isEmpty = false := by
    cases cs with
    | nil => exact absurd rfl hcs
    | cons a l => rfl
  have hreqe : (e.required.getD []).isEmpty = false := by
    cases hh : (e.required.getD []) with
    | nil => exact absurd hh hreq
    | cons a l => rfl
  have hcond : (!(e.required.getD []).isEmpty &&
      !hasDescWithTag (e.required.getD []) cs) = true := by
    simp [hreqe, hnodesc]
  rw [cleanNode, if_pos hv]
  split
  next hnone => rw [heq] at hnone; exact absurd hnone (by simp)
  next e2 hsome =>
    rw [heq] at hsome
    injection hsome with hinj
    subst hinj
    rw [if_neg (by simp [hne])]
    rw [if_neg (by simp [hcse])]
    simp only [hch]
    rw [if_pos hcond]

/-- Witness for `c4_amended`: `<figure>x</figure>` against
`{ figure: { children: { img: {} }, require: [ 'img' ] } }`. -/
theorem c4_amended_witness :
    cleanNode (.element "figure" [] [.text "x"]) []
      [("figure", .mk none none (some [("img", emptyEntry)]) (some ["img"]))] false =
    cleanSiblings [.text "x"]
      [("figure", .mk none none (some [("img", emptyEntry)]) (some ["img"]))] false :=
  c4_amended "figure" [] [.text "x"] []
    [("figure", .mk none none (some [("img", emptyEntry)]) (some ["img"]))] false
    (.mk none none (some [("img", emptyEntry)]) (some ["img"]))
    [("img", emptyEntry)] rfl rfl (by decide) rfl rfl

/-! ## C5: the childless-entry branch -/

/-- The parse of `<em>a</em>` and schema `{ em: {} }`. -/
def c5Input : List DNode := [.element "em" [] [.text "a"]]

def c5Schema : Schema := [("em", emptyEntry)]

/-- C5: a schema-valid element under a childless entry that has child
nodes sends `cleanNodeList` into
`while ( node.firstChild ) node.removeNode( node.firstChild )`;
`removeNode` is not a DOM method (the standard method is `removeChild`),
so the call throws a `TypeError` instead of stripping the children. -/
theorem c5_removeNode_throws :
    removeInvalidHTML c5Input c5Schema false =
      .error "TypeError: node.removeNode is not a function" := rfl

/-! ## C6: double line break -/

/-- The parse of `<strong>a<br><br>b</strong>`: the double `br` sits one
level below the body. -/
def c6NestedInput : List DNode :=
  [.element "strong" [] [.text "a", brNode, brNode, .text "b"]]

/-- C6 counterexample.  The double-`BR` scan runs only over
`doc.body.children`; a `br<br><br>` pair nested inside a phrasing element
is never examined, and `deepCheck` accepts `br` as phrasing, so
`isInlineContent` returns `true` although a line-break element immediately
preceded by another one exists in the tree (first conjunct: the `strong`
node's own child list is exactly a double-`br` context). -/
theorem c6_counterexample :
    someDoubleBR [.text "a", brNode, brNode, .text "b"] = true ∧
    isInlineContent c6NestedInput none = true := by
  exact ⟨rfl, rfl⟩

/-- C6 amended: the double-break rule applies at the top level of the
parsed body: whenever the body's child-node list contains a `br`
immediately preceded by a `br`, `isInlineContent` is `false` for every
context tag. -/
theorem c6_amended (ns : List DNode) (t : Option String)
    (h : someDoubleBR ns = true) : isInlineContent ns t = false := by
  rw [isInlineContent, h]
  rfl

/-- Witness for `c6_amended`: the literal case `a<br><br>b`. -/
theorem c6_amended_witness :
    isInlineContent [.text "a", brNode, brNode, .text "b"] none = false :=
  c6_amended [.text "a", brNode, brNode, .text "b"] none rfl

/-! ## C7: embedded-content promotion, literal case -/

/-- Schema `{ figure: { children: { img: {} } } }` from the repository's
test. -/
def c7Schema : Schema := [("figure", .mk none none (some [("img", emptyEntry)]) none)]

/-- The document whose body is the parse of
`<p><strong>test<img class="one"></strong><img class="two"></p>`. -/
def c7Doc : Doc :=
  { root := .element 0 "html" []
      [.element 1 "body" []
        [.element 2 "p" []
          [.element 3 "strong" []
            [.text 4 "test", .element 5 "img" [("class", "one")] []],
           .element 6 "img" [("class", "two")] []]]],
    detached := [], nextId := 7 }

/-- C7: running the embedded-content reducer through the deep filter
engine on `<p><strong>test<img class="one"></strong><img class="two"></p>`
produces exactly
`<figure><img class="one"></figure><figure><img class="two"></figure><p><strong>test</strong></p>`:
one `figure` per image, inserted before the paragraph in encounter order,
the paragraph keeping only the non-embedded content.  The first conjunct
ties the input document to the input string. -/
theorem c7_embedded_promotion :
    serializeList (stripIds (c7Doc.bodyChildren 1)) =
      "<p><strong>test<img class=\"one\"></strong><img class=\"two\"></p>" ∧
    serializeList (stripIds
      (((deepFilterNodeList [embeddedContentReducer c7Schema] 20 c7Doc
          (c7Doc.childIds 1)).1).bodyChildren 1)) =
      "<figure><img class=\"one\"></figure><figure><img class=\"two\"></figure><p><strong>test</strong></p>" := by
  exact ⟨rfl, rfl⟩

/-! ## C8: the engine never filters detached nodes -/

theorem runFiltersOn_detached (fs : List Filt) (d : Doc) (id : Nat)
    (h : d.containsId id = false) : runFiltersOn fs d id = (d, []) := by
  induction fs with
  | nil => rfl
  | cons f fs ih =>
    rw [runFiltersOn, if_neg (by simp [h]), ih]

theorem runFiltersOn_trace (fs : List Filt) :
    ∀ (d : Doc) (id : Nat), ∀ ev ∈ (runFiltersOn fs d id).2,
      ev.2.containsId ev.1 = true := by
  induction fs with
  | nil =>
    intro d id ev hev
    simp [runFiltersOn] at hev
  | cons f fs ih =>
    intro d id ev hev
    rw [runFiltersOn] at hev
    by_cases hc : d.containsId id = true
    · rw [if_pos hc] at hev
      simp only [List.mem_cons] at hev
      rcases hev with rfl | hev
      · exact hc
      · exact ih (f d id) id ev hev
    · rw [if_neg hc] at hev
      exact ih d id ev hev

theorem deepFilter_trace (filters : List Filt) :
    ∀ (fuel : Nat) (d : Doc) (ids : List Nat),
      ∀ ev ∈ (deepFilterNodeList filters fuel d ids).2, ev.2.containsId ev.1 = true
  | 0, d, ids => by
    intro ev hev
    simp [deepFilterNodeList] at hev
  | fuel + 1, d, [] => by
    intro ev hev
    simp [deepFilterNodeList] at hev
  | fuel + 1, d, id :: ids => by
    intro ev hev
    rw [deepFilterNodeList] at hev
    simp only [List.append_assoc, List.mem_append] at hev
    rcases hev with h1 | h2 | h3
    · exact deepFilter_trace filters fuel d (d.childIds id) ev h1
    · exact runFiltersOn_trace filters _ id ev h2
    · exact deepFilter_trace filters fuel _ ids ev h3

/-- C8: during `deepFilterNodeList`, every recorded filter invocation
happened on a node contained in the document at that moment (first
conjunct: every trace event carries the document state at invocation
time, and the node is contained in it); and when a node has been
detached, the remaining filter applications are skipped as a no-op — the
document is returned unchanged, no filter runs, no event is recorded
(second conjunct). -/
theorem c8_engine_containment :
    (∀ (filters : List Filt) (fuel : Nat) (d : Doc) (ids : List Nat),
      ∀ ev ∈ (deepFilterNodeList filters fuel d ids).2,
        ev.2.containsId ev.1 = true) ∧
    (∀ (filters : List Filt) (d : Doc) (id : Nat),
      d.containsId id = false → runFiltersOn filters d id = (d, [])) :=
  ⟨fun filters fuel d ids => deepFilter_trace filters fuel d ids,
   fun filters d id h => runFiltersOn_detached filters d id h⟩

/-- A tiny document with a `p` in the body, and one with the `p`
detached. -/
def c8Doc : Doc :=
  { root := .element 0 "html" [] [.element 1 "body" [] [.element 2 "p" [] []]],
    detached := [], nextId := 3 }

def c8Det : Doc :=
  { root := .element 0 "html" [] [.element 1 "body" [] []],
    detached := [.element 2 "p" [] []], nextId := 3 }

/-- Witness for `c8_engine_containment` at a concrete run and a concrete
detached node. -/
theorem c8_engine_containment_witness :
    Doc.containsId c8Doc 2 = true ∧
    runFiltersOn [fun d _ => d] c8Det 2 = (c8Det, []) := by
  constructor
  · have hm : ((2 : Nat), c8Doc) ∈
        (deepFilterNodeList [fun d _ => d] 2 c8Doc [2]).2 := by
      rw [show (deepFilterNodeList [fun d _ => d] 2 c8Doc [2]).2 =
        [((2 : Nat), c8Doc)] from rfl]
      exact List.mem_singleton_self _
    exact c8_engine_containment.1 [fun d _ => d] 2 c8Doc [2] (2, c8Doc) hm
  · exact c8_engine_containment.2 [fun d _ => d] c8Det 2 rfl

/-! ## C9: the phrasing-content schema -/

theorem hasKey_cons (p : String × SchemaEntry) (ps : Schema) (u : String) :
    hasKey (p :: ps) u = ((p.1 == u) || hasKey ps u) := by
  rw [hasKey, ← Prod.eta p, lookupKey_cons]
  cases hc : (p.1 == u) <;> simp [hasKey]

theorem hasKey_omitKey_ne (s : Schema) (t u : String) (h : u ≠ t) :
    hasKey (omitKey s t) u = hasKey s u := by
  induction s with
  | nil => rfl
  | cons p ps ih =>
    by_cases hpt : (p.1 != t) = true
    · have hstep : omitKey (p :: ps) t = p :: omitKey ps t := by
        simp only [omitKey, List.filter]
        rw [hpt]
      rw [hstep, hasKey_cons, hasKey_cons, ih]
    · have hpt' : p.1 = t := by
        simpa using hpt
      have hstep : omitKey (p :: ps) t = omitKey ps t := by
        simp only [omitKey, List.filter]
        rw [show (p.1 != t) = false by simpa using hpt]
      have hpu : (p.1 == u) = false := by
        rw [hpt']
        cases hc : (t == u) with
        | false => rfl
        | true => exact absurd ((by simpa using hc : t = u)).symm h
      rw [hstep, ih, hasKey_cons, hpu, Bool.false_or]

theorem hasKey_omitKey_self (s : Schema) (t : String) :
    hasKey (omitKey s t) t = false := by
  rw [hasKey, lookupKey]
  cases hf : (omitKey s t).find? (fun p => p.1 == t) with
  | none => rfl
  | some p =>
    have hmem := List.mem_of_find?_eq_some hf
    have hp := List.find?_some hf
    have hcontra := (List.mem_filter.mp hmem).2
    simp [bne, hp] at hcontra

/-- The key list of the phrasing schema at any unfolding depth is the
fixed phrasing key list. -/
theorem keys_phrasing (d : Nat) :
    (getPhrasingContentSchema d).map Prod.fst = phrasingKeys := by
  cases d <;> rfl

/-- The nesting property of the phrasing schema, to depth `d`: every
entry for one of the nine nesting tags carries a children schema that
contains an entry for every phrasing key except the tag itself, has no
entry for the tag itself, and recursively satisfies the same property;
`br` and the text entry carry no children. -/
def goodTo : Nat → Schema → Prop
  | 0, _ => True
  | d + 1, s =>
    ∀ p ∈ s,
      (nestingKeys.contains p.1 = true →
        ∃ c, p.2.children = some c ∧
          (∀ u ∈ phrasingKeys, u ≠ p.1 → hasKey c u = true) ∧
          hasKey c p.1 = false ∧ goodTo d c) ∧
      ((p.1 = "br" ∨ p.1 = "3") → p.2.children = none)

theorem goodTo_subset : ∀ (d : Nat) (s s' : Schema),
    (∀ p, p ∈ s' → p ∈ s) → goodTo d s → goodTo d s'
  | 0, _, _, _, _ => trivial
  | _ + 1, _, _, hsub, h => fun p hp => h p (hsub p hp)

/-- C9: at every unfolding depth, the phrasing-content schema has an
entry for every phrasing key, every nesting-tag entry's children schema
is the full phrasing schema minus the tag itself (self-nesting excluded,
all other phrasing tags present, recursively to the full depth), and the
`br` and text-sentinel entries have no children field. -/
theorem c9_phrasing_nesting : ∀ d : Nat,
    goodTo d (getPhrasingContentSchema d) ∧
    (∀ u ∈ phrasingKeys, hasKey (getPhrasingContentSchema d) u = true) := by
  intro d
  induction d with
  | zero =>
    refine ⟨trivial, ?_⟩
    intro u hu
    rw [hasKey_iff_mem, keys_phrasing]
    exact hu
  | succ d ih =>
    constructor
    · intro p hp
      rcases List.mem_map.mp hp with ⟨t, ht, rfl⟩
      constructor
      · intro htn
        refine ⟨omitKey (getPhrasingContentSchema d) t, ?_, ?_, ?_, ?_⟩
        · simp only [SchemaEntry.children]
          rw [if_pos htn]
        · intro u hu hne
          rw [hasKey_omitKey_ne _ _ _ hne]
          exact ih.2 u hu
        · exact hasKey_omitKey_self _ _
        · exact goodTo_subset d _ _
            (fun q hq => (List.mem_filter.mp hq).1) ih.1
      · intro hbr
        rcases hbr with h | h
        · rw [show t = "br" from h]
          simp only [SchemaEntry.children]
          rw [if_neg (by decide)]
        · rw [show t = "3" from h]
          simp only [SchemaEntry.children]
          rw [if_neg (by decide)]
    · intro u hu
      rw [hasKey_iff_mem, keys_phrasing]
      exact hu

/-- Witness for `c9_phrasing_nesting` at a concrete depth and key. -/
theorem c9_phrasing_nesting_witness :
    hasKey (getPhrasingContentSchema 3) "strong" = true :=
  (c9_phrasing_nesting 3).2 "strong" (by decide)

/-! ## C10: the empty string is inline -/

/-- C10: the parse of the empty string has no body children, so
`isInlineContent( "", tagName )` is `true` for every context tag: the
double-break scan finds nothing and the recursive phrasing check is
vacuous. -/
theorem c10_empty_is_inline (t : Option String) : isInlineContent [] t = true := rfl

end Gutenberg
